import Mathlib

/-!
Shallow embedding of the core of `src/src/App.jsx` (powerballpicker):
the weighted pick-generation algorithm (`pickOneBlended`, `generatePicks`,
the frequency tables) and the prize evaluator (`computePrize`).

Conventions of the embedding:
* JavaScript numbers that hold ball values / counts are modelled as `ℤ`;
  probabilities, weights and random draws as `ℚ` (exact arithmetic in place
  of IEEE floats; the code's own last-element fallback for rounding is kept).
* A `Map` of weights is a function `ℤ → Option ℚ` (`Map.get` returns
  `undefined`, i.e. `none`, for a missing key); the JS defaults
  `get(n) || 0` and `get(n) || 1` are modelled by `getOr0` / `getOr1`
  (note `0 || 1 = 1` in JS, so a stored weight of `0` reads as `1` there).
* The ambient entropy source `Math.random()` is modelled by an injected
  stream `rs : ℕ → ℚ` together with a counter that advances by one for
  every `pickOneBlended` call, in the order the source performs the calls.
* The template-string key `` `${whiteMatches}-${pbMatch ? 1 : 0}` `` of the
  prize table is modelled by the pair `(whiteMatches, pbMatch)`; the string
  formatting is injective on integer × boolean so the lookup is the same.
-/

/-- Model of `clampInt(value, min, max)`: `Math.max(min, Math.min(max, n))`
(for an integer input `Number.parseInt` is the identity). -/
def clampInt (value lo hi : ℤ) : ℤ :=
  max lo (min hi value)

/-- Model of `clampNumber(value, min, max)` on a (finite) numeric input. -/
def clampQ (value lo hi : ℚ) : ℚ :=
  max lo (min hi value)

/-- JS `baseWeights.get(n) || 0` (missing key, or a stored `0`, gives `0`). -/
def getOr0 (weights : ℤ → Option ℚ) (n : ℤ) : ℚ :=
  match weights n with
  | some q => q
  | none => 0

/-- JS `baseWeights.get(n) || 1` (missing key gives `1`; a stored `0` is
falsy in JS so it also gives `1`). -/
def getOr1 (weights : ℤ → Option ℚ) (n : ℤ) : ℚ :=
  match weights n with
  | some q => if q = 0 then 1 else q
  | none => 1

/-- The blended probability computed for one candidate inside the loop of
`pickOneBlended`: `(1 - a) * weightedP + a * uniformP` with
`weightedP = w / sumW`. -/
def blendP (weights : ℤ → Option ℚ) (a sumW uniformP : ℚ) (n : ℤ) : ℚ :=
  (1 - a) * (getOr1 weights n / sumW) + a * uniformP

/-- The `for (const n of availableNums)` loop of `pickOneBlended`:
accumulate the blended probabilities and return the first candidate at
which `r <= cumulative`; `none` when the loop falls through. -/
def pickLoop (weights : ℤ → Option ℚ) (a sumW uniformP r : ℚ) :
    ℚ → List ℤ → Option ℤ
  | _, [] => none
  | cum, n :: rest =>
    let c := cum + blendP weights a sumW uniformP n
    if r ≤ c then some n else pickLoop weights a sumW uniformP r c rest

/-- Model of `pickOneBlended(availableNums, baseWeights, alpha)` with the
call's `Math.random()` draw passed in as `r`.  The `availableNums[len-1]`
fallback is `getLast?` (with a junk value `0` for the empty list, on which
the JS code would yield `undefined`; no caller passes an empty list). -/
def pickOneBlended (availableNums : List ℤ) (baseWeights : ℤ → Option ℚ)
    (alpha r : ℚ) : ℤ :=
  let a := clampQ alpha 0 1
  let uniformP : ℚ := 1 / (availableNums.length : ℚ)
  let sumW0 : ℚ := (availableNums.map (getOr0 baseWeights)).sum
  let sumW : ℚ := if sumW0 ≤ 0 then (availableNums.length : ℚ) else sumW0
  match pickLoop baseWeights a sumW uniformP r 0 availableNums with
  | some n => n
  | none => (availableNums.getLast?).getD 0

/-- The list `[lo, lo+1, ..., lo+n-1]`, as built by a JS
`for (...) arr.push(n)` loop. -/
def buildRange (lo : ℤ) : ℕ → List ℤ
  | 0 => []
  | n + 1 => lo :: buildRange (lo + 1) n

/-- The main-number domain `[1, 69]` as built by
`for (let n = 1; n <= 69; n++) availableMain.push(n)`. -/
def mainDomain : List ℤ :=
  buildRange 1 69

/-- The powerball domain `[1, 26]` as built by
`for (let n = 1; n <= 26; n++) availablePb.push(n)`. -/
def pbDomain : List ℤ :=
  buildRange 1 26

/-- Model of `arr.splice(arr.indexOf(x), 1)`: remove the first occurrence
of `x`; when `x` is absent, `indexOf` is `-1` and `splice(-1, 1)` removes
the last element. -/
def removeJS (l : List ℤ) (x : ℤ) : List ℤ :=
  if x ∈ l then l.erase x else l.dropLast

/-- The `for (const forced of lockedMain)` seeding loop of `generatePicks`:
push each forced value not already present and delete it from the
candidate pool when found there (`if (idx !== -1)` guard). -/
def seedLocked : List ℤ → List ℤ × List ℤ → List ℤ × List ℤ
  | [], s => s
  | forced :: rest, (main, avail) =>
    if forced ∈ main then
      seedLocked rest (main, avail)
    else
      seedLocked rest
        (main ++ [forced], if forced ∈ avail then avail.erase forced else avail)

/-- The `while (main.length < 5)` loop of `generatePicks`, with a fuel
argument: each iteration pushes exactly one selected value, so fuel `5`
makes the recursion reproduce the loop exactly.  Returns the filled `main`
list together with the advanced entropy counter. -/
def fillMain (mainW : ℤ → Option ℚ) (alpha : ℚ) (rs : ℕ → ℚ) :
    ℕ → List ℤ → List ℤ → ℕ → List ℤ × ℕ
  | 0, main, _, k => (main, k)
  | fuel + 1, main, avail, k =>
    if main.length < 5 then
      let selected := pickOneBlended avail mainW alpha (rs k)
      fillMain mainW alpha rs fuel (main ++ [selected]) (removeJS avail selected)
        (k + 1)
    else
      (main, k)

/-- Model of `main.sort((a, b) => a - b)`: the ascending sorted permutation
(sorting is stable; on integer values any stable ascending sort computes
this function). -/
def sortAsc (l : List ℤ) : List ℤ :=
  l.insertionSort (· ≤ ·)

/-- A generated pick: `{ main, powerball }`. -/
structure Pick where
  main : List ℤ
  powerball : ℤ
  deriving DecidableEq, Repr

/-- One iteration of the `for (let i = 0; i < safeCount; i++)` loop of
`generatePicks`: optional pre-selected powerball from the locked set, seed
the locked main numbers, fill to 5, resolve the powerball, sort.  Returns
the pick and the advanced entropy counter. -/
def onePick (mainW pbW : ℤ → Option ℚ) (alpha : ℚ)
    (lockedMain powerballCandidates : List ℤ) (rs : ℕ → ℚ) (k : ℕ) :
    Pick × ℕ :=
  let lockedPb : Option ℤ × ℕ :=
    if 0 < powerballCandidates.length then
      (some (pickOneBlended powerballCandidates pbW alpha (rs k)), k + 1)
    else
      (none, k)
  let seeded := seedLocked lockedMain ([], mainDomain)
  let filled := fillMain mainW alpha rs 5 seeded.1 seeded.2 lockedPb.2
  let pb : ℤ × ℕ :=
    match lockedPb.1 with
    | some p => (p, filled.2)
    | none => (pickOneBlended pbDomain pbW alpha (rs filled.2), filled.2 + 1)
  (⟨sortAsc filled.1, pb.1⟩, pb.2)

/-- The pick-accumulating loop of `generatePicks`, iterated `safeCount`
times while threading the entropy counter. -/
def picksLoop (mainW pbW : ℤ → Option ℚ) (alpha : ℚ)
    (lockedMain powerballCandidates : List ℤ) (rs : ℕ → ℚ) :
    ℕ → ℕ → List Pick
  | 0, _ => []
  | i + 1, k =>
    let step := onePick mainW pbW alpha lockedMain powerballCandidates rs k
    step.1 :: picksLoop mainW pbW alpha lockedMain powerballCandidates rs i step.2

/-- Model of `generatePicks(count, randomnessPct, lockedMainNums,
pbLockedNums)`.  The frequency tables `mainW`, `pbW` are the component's
`mainBaseWeights` / `pbBaseWeights` closures, passed explicitly; `rs` is
the injected entropy stream. -/
def generatePicks (mainW pbW : ℤ → Option ℚ) (count : ℤ)
    (randomnessPct : ℚ) (lockedMainNums pbLockedNums : List ℤ)
    (rs : ℕ → ℚ) : List Pick :=
  let safeCount := clampInt count 1 50
  let alpha := clampQ randomnessPct 0 100 / 100
  let lockedMain := lockedMainNums.take 5
  picksLoop mainW pbW alpha lockedMain pbLockedNums rs safeCount.toNat 0

/-- A historical draw as consumed by the frequency analysis. -/
structure Draw where
  main : List ℤ
  powerball : ℤ
  deriving DecidableEq, Repr

/-- The `analysis.mainFreq` table: occurrences of `n` pooled across all
draws' `main` arrays. -/
def mainFreq (draws : List Draw) (n : ℤ) : ℕ :=
  (draws.map fun d => d.main.count n).sum

/-- The `analysis.pbFreq` table: occurrences of `n` as a powerball (every
integer powerball passes the `Number.isFinite` guard). -/
def pbFreq (draws : List Draw) (n : ℤ) : ℕ :=
  (draws.map fun d => if d.powerball = n then 1 else 0).sum

/-- The `mainBaseWeights` map: keys exactly `1..69`, value
`(mainFreq[n] || 0) + 1` (Laplace smoothing). -/
def mainBaseWeights (draws : List Draw) : ℤ → Option ℚ := fun n =>
  if n ∈ mainDomain then some ((mainFreq draws n : ℚ) + 1) else none

/-- The `pbBaseWeights` map: keys exactly `1..26`, value
`(pbFreq[n] || 0) + 1`. -/
def pbBaseWeights (draws : List Draw) : ℤ → Option ℚ := fun n =>
  if n ∈ pbDomain then some ((pbFreq draws n : ℚ) + 1) else none

/-- A prize amount: the string `"JACKPOT"` or a numeric amount. -/
inductive Prize where
  | jackpot : Prize
  | cash : ℚ → Prize
  deriving DecidableEq, Repr

/-- A JavaScript number as far as `computePrize` inspects one:
`Number.isFinite` and magnitude comparisons. -/
inductive JSNum where
  | nan : JSNum
  | posInf : JSNum
  | negInf : JSNum
  | fin : ℚ → JSNum
  deriving DecidableEq, Repr

/-- `Number.isFinite(m) && m >= 2` (comparisons with `NaN` are false). -/
def isValidMult : JSNum → Bool
  | JSNum.fin q => decide (2 ≤ q)
  | _ => false

/-- The `validM` value of `computePrize`: the multiplier when it passes the
check, else `null`. -/
def validM : JSNum → Option ℚ
  | JSNum.fin q => if 2 ≤ q then some q else none
  | _ => none

/-- The hard-coded `baseTable` of `computePrize`, keyed by
`(whiteMatches, pbMatch)` in place of the `"w-b"` template string. -/
def baseTable : List ((ℤ × Bool) × Prize) :=
  [((5, true), Prize.jackpot),
   ((5, false), Prize.cash 1000000),
   ((4, true), Prize.cash 50000),
   ((4, false), Prize.cash 100),
   ((3, true), Prize.cash 100),
   ((3, false), Prize.cash 7),
   ((2, true), Prize.cash 7),
   ((1, true), Prize.cash 4),
   ((0, true), Prize.cash 4)]

/-- `base * validM` for a cash base (the jackpot case is returned before
this multiplication in the source). -/
def mulPrize (p : Prize) (m : ℚ) : Prize :=
  match p with
  | Prize.jackpot => Prize.jackpot
  | Prize.cash b => Prize.cash (b * m)

/-- Model of `computePrize(whiteMatches, pbMatch, powerPlayMultiplier)`.
The multiplier argument is `none` for `null`/`undefined` and
`some jsn` for a JS number.  Result: `(base, withPowerPlay)` with
`withPowerPlay = none` for the source's `null`. -/
def computePrize (whiteMatches : ℤ) (pbMatch : Bool)
    (powerPlayMultiplier : Option JSNum) : Prize × Option Prize :=
  let base := (baseTable.lookup (whiteMatches, pbMatch)).getD (Prize.cash 0)
  match powerPlayMultiplier with
  | none => (base, none)
  | some mRaw =>
    match validM mRaw with
    | none => (base, none)
    | some m =>
      if base = Prize.jackpot then (base, some Prize.jackpot)
      else if base = Prize.cash 0 then (Prize.cash 0, some (Prize.cash 0))
      else if whiteMatches = 5 ∧ pbMatch = false then
        (base, some (Prize.cash 2000000))
      else (base, some (mulPrize base m))

/-! ### Helper lemmas about the embedded operations -/

theorem mem_buildRange {x lo : ℤ} {n : ℕ} :
    x ∈ buildRange lo n ↔ lo ≤ x ∧ x < lo + n := by
  induction n generalizing lo with
  | zero => simp [buildRange]
  | succ m ih =>
    simp only [buildRange, List.mem_cons, ih]
    omega

theorem nodup_buildRange {lo : ℤ} {n : ℕ} : (buildRange lo n).Nodup := by
  induction n generalizing lo with
  | zero => simp [buildRange]
  | succ m ih =>
    simp only [buildRange, List.nodup_cons]
    exact ⟨fun h => by have := mem_buildRange.mp h; omega, ih⟩

theorem length_buildRange {lo : ℤ} {n : ℕ} : (buildRange lo n).length = n := by
  induction n generalizing lo with
  | zero => rfl
  | succ m ih => simp [buildRange, ih]

theorem mem_mainDomain {x : ℤ} : x ∈ mainDomain ↔ 1 ≤ x ∧ x ≤ 69 := by
  rw [mainDomain, mem_buildRange]; omega

theorem mem_pbDomain {x : ℤ} : x ∈ pbDomain ↔ 1 ≤ x ∧ x ≤ 26 := by
  rw [pbDomain, mem_buildRange]; omega

theorem mainDomain_nodup : mainDomain.Nodup := nodup_buildRange

theorem mainDomain_length : mainDomain.length = 69 := length_buildRange

theorem pbDomain_length : pbDomain.length = 26 := length_buildRange

theorem pickLoop_mem {weights : ℤ → Option ℚ} {a sumW uniformP r : ℚ}
    {cum : ℚ} {l : List ℤ} {n : ℤ}
    (h : pickLoop weights a sumW uniformP r cum l = some n) : n ∈ l := by
  induction l generalizing cum with
  | nil => simp [pickLoop] at h
  | cons x xs ih =>
    simp only [pickLoop] at h
    split at h
    · simp_all
    · exact List.mem_cons_of_mem x (ih h)

theorem pickOneBlended_mem {availableNums : List ℤ}
    (hne : availableNums ≠ []) (baseWeights : ℤ → Option ℚ) (alpha r : ℚ) :
    pickOneBlended availableNums baseWeights alpha r ∈ availableNums := by
  unfold pickOneBlended
  dsimp only
  split
  · next n h => exact pickLoop_mem h
  · next h =>
    rw [List.getLast?_eq_getLast availableNums hne]
    exact List.getLast_mem hne

/-- Invariant tying the partially built `main` list to the remaining
candidate pool during one iteration of `generatePicks`. -/
structure PoolInv (main avail : List ℤ) : Prop where
  nodupMain : main.Nodup
  nodupAvail : avail.Nodup
  disj : ∀ x ∈ avail, x ∉ main
  mainSub : ∀ x ∈ main, x ∈ mainDomain
  availSub : ∀ x ∈ avail, x ∈ mainDomain
  cover : ∀ x ∈ mainDomain, x ∉ main → x ∈ avail

theorem poolInv_init : PoolInv [] mainDomain := by
  refine ⟨List.nodup_nil, mainDomain_nodup, ?_, ?_, ?_, ?_⟩ <;> simp

theorem poolInv_step {main avail : List ℤ} (inv : PoolInv main avail)
    {x : ℤ} (hdom : x ∈ mainDomain) (hnew : x ∉ main) :
    PoolInv (main ++ [x]) (avail.erase x) := by
  have hx : x ∈ avail := inv.cover x hdom hnew
  refine ⟨?_, inv.nodupAvail.erase x, ?_, ?_, ?_, ?_⟩
  · rw [List.nodup_append]
    exact ⟨inv.nodupMain, List.nodup_singleton x,
      fun a ha hb => by simp at hb; subst hb; exact hnew ha⟩
  · intro y hy
    have hyn : y ≠ x := fun h => inv.nodupAvail.not_mem_erase (h ▸ hy)
    have := inv.disj y (List.mem_of_mem_erase hy)
    simp [List.mem_append, hyn, this]
  · intro y hy
    rcases List.mem_append.mp hy with h | h
    · exact inv.mainSub y h
    · simp at h; exact h ▸ hdom
  · exact fun y hy => inv.availSub y (List.mem_of_mem_erase hy)
  · intro y hy hymain
    have h1 : y ∉ main := fun h => hymain (List.mem_append.mpr (Or.inl h))
    have h2 : y ≠ x := fun h => hymain (by simp [h])
    exact (List.mem_erase_of_ne h2).mpr (inv.cover y hy h1)

theorem seedLocked_spec {locked : List ℤ} :
    ∀ {main avail : List ℤ}, PoolInv main avail →
    (∀ x ∈ locked, x ∈ mainDomain) →
    PoolInv (seedLocked locked (main, avail)).1
      (seedLocked locked (main, avail)).2 ∧
    (seedLocked locked (main, avail)).1.length +
      (seedLocked locked (main, avail)).2.length =
      main.length + avail.length ∧
    (seedLocked locked (main, avail)).1.length ≤
      main.length + locked.length ∧
    (∀ x ∈ main, x ∈ (seedLocked locked (main, avail)).1) ∧
    (∀ x ∈ locked, x ∈ (seedLocked locked (main, avail)).1) := by
  induction locked with
  | nil =>
    intro main avail inv _
    exact ⟨inv, rfl, by simp [seedLocked], fun x h => h, by simp⟩
  | cons forced rest ih =>
    intro main avail inv hdom
    by_cases hmem : forced ∈ main
    · have hstep : seedLocked (forced :: rest) (main, avail) =
          seedLocked rest (main, avail) := by
        simp [seedLocked, hmem]
      rw [hstep]
      obtain ⟨i1, i2, i3, i4, i5⟩ :=
        ih inv (fun x hx => hdom x (List.mem_cons_of_mem forced hx))
      refine ⟨i1, i2, by simp; omega, i4, ?_⟩
      intro x hx
      rcases List.mem_cons.mp hx with h | h
      · exact h ▸ i4 forced hmem
      · exact i5 x h
    · have hav : forced ∈ avail :=
        inv.cover forced (hdom forced (List.mem_cons_self forced rest)) hmem
      have hstep : seedLocked (forced :: rest) (main, avail) =
          seedLocked rest (main ++ [forced], avail.erase forced) := by
        simp [seedLocked, hmem, hav]
      rw [hstep]
      have inv' := poolInv_step inv (hdom forced (List.mem_cons_self forced rest)) hmem
      obtain ⟨i1, i2, i3, i4, i5⟩ :=
        ih inv' (fun x hx => hdom x (List.mem_cons_of_mem forced hx))
      have hlen : (avail.erase forced).length = avail.length - 1 :=
        List.length_erase_of_mem hav
      have havpos : 1 ≤ avail.length := List.length_pos_of_mem hav
      refine ⟨i1, by simp at i2 ⊢; omega, by simp at i3 ⊢; omega, ?_, ?_⟩
      · intro x hx
        exact i4 x (List.mem_append.mpr (Or.inl hx))
      · intro x hx
        rcases List.mem_cons.mp hx with h | h
        · exact h ▸ i4 forced (List.mem_append.mpr (Or.inr (List.mem_singleton_self forced)))
        · exact i5 x h

theorem fillMain_spec (mainW : ℤ → Option ℚ) (alpha : ℚ) (rs : ℕ → ℚ) :
    ∀ (fuel : ℕ) {main avail : List ℤ} (k : ℕ), PoolInv main avail →
    main.length ≤ 5 → 5 ≤ main.length + avail.length →
    5 ≤ main.length + fuel →
    (fillMain mainW alpha rs fuel main avail k).1.length = 5 ∧
    (fillMain mainW alpha rs fuel main avail k).1.Nodup ∧
    (∀ x ∈ (fillMain mainW alpha rs fuel main avail k).1, x ∈ mainDomain) ∧
    (∀ x ∈ main, x ∈ (fillMain mainW alpha rs fuel main avail k).1) := by
  intro fuel
  induction fuel with
  | zero =>
    intro main avail k inv h5 _ hfuel
    have : main.length = 5 := by omega
    exact ⟨this, inv.nodupMain, inv.mainSub, fun x h => h⟩
  | succ f ih =>
    intro main avail k inv h5 hsum hfuel
    by_cases hlt : main.length < 5
    · have havne : avail ≠ [] := by
        intro h
        rw [h] at hsum
        simp at hsum
        omega
      have hsel : pickOneBlended avail mainW alpha (rs k) ∈ avail :=
        pickOneBlended_mem havne mainW alpha (rs k)
      set selected := pickOneBlended avail mainW alpha (rs k) with hseldef
      have hstep : fillMain mainW alpha rs (f + 1) main avail k =
          fillMain mainW alpha rs f (main ++ [selected])
            (removeJS avail selected) (k + 1) := by
        rw [fillMain]
        simp [hlt]
      have hrem : removeJS avail selected = avail.erase selected := by
        simp [removeJS, hsel]
      have inv' : PoolInv (main ++ [selected]) (avail.erase selected) :=
        poolInv_step inv (inv.availSub selected hsel) (inv.disj selected hsel)
      have hlenerase : (avail.erase selected).length = avail.length - 1 :=
        List.length_erase_of_mem hsel
      have havpos : 1 ≤ avail.length := List.length_pos_of_mem hsel
      rw [hstep, hrem]
      obtain ⟨i1, i2, i3, i4⟩ := ih (k + 1) inv' (by simp; omega)
        (by simp; omega) (by simp; omega)
      exact ⟨i1, i2, i3, fun x hx => i4 x (List.mem_append.mpr (Or.inl hx))⟩
    · have hstep : fillMain mainW alpha rs (f + 1) main avail k = (main, k) := by
        rw [fillMain]
        simp [hlt]
      rw [hstep]
      have : main.length = 5 := by omega
      exact ⟨this, inv.nodupMain, inv.mainSub, fun x h => h⟩

theorem sortAsc_perm (l : List ℤ) : (sortAsc l).Perm l :=
  List.perm_insertionSort (· ≤ ·) l

theorem sortAsc_sorted_le (l : List ℤ) : (sortAsc l).Sorted (· ≤ ·) :=
  List.sorted_insertionSort (· ≤ ·) l

theorem sortAsc_sorted_lt {l : List ℤ} (h : l.Nodup) :
    (sortAsc l).Sorted (· < ·) := by
  have h1 : (sortAsc l).Pairwise (· ≤ ·) := sortAsc_sorted_le l
  have h2 : (sortAsc l).Pairwise (· ≠ ·) := ((sortAsc_perm l).nodup_iff).mpr h
  exact (h1.and h2).imp fun hab => lt_of_le_of_ne hab.1 hab.2

theorem pbDomain_ne_nil : pbDomain ≠ [] := by decide

theorem onePick_spec (mainW pbW : ℤ → Option ℚ) (alpha : ℚ)
    (lockedMain pbCands : List ℤ) (rs : ℕ → ℚ) (k : ℕ)
    (hlockdom : ∀ x ∈ lockedMain, x ∈ mainDomain)
    (hlocklen : lockedMain.length ≤ 5) :
    (onePick mainW pbW alpha lockedMain pbCands rs k).1.main.length = 5 ∧
    (onePick mainW pbW alpha lockedMain pbCands rs k).1.main.Sorted (· < ·) ∧
    (∀ x ∈ (onePick mainW pbW alpha lockedMain pbCands rs k).1.main,
      1 ≤ x ∧ x ≤ 69) ∧
    (∀ x ∈ lockedMain,
      x ∈ (onePick mainW pbW alpha lockedMain pbCands rs k).1.main) ∧
    (pbCands ≠ [] →
      (onePick mainW pbW alpha lockedMain pbCands rs k).1.powerball ∈ pbCands) ∧
    (pbCands = [] →
      1 ≤ (onePick mainW pbW alpha lockedMain pbCands rs k).1.powerball ∧
      (onePick mainW pbW alpha lockedMain pbCands rs k).1.powerball ≤ 26) := by
  obtain ⟨sinv, ssum, slen, _, slock⟩ :=
    @seedLocked_spec lockedMain [] mainDomain poolInv_init hlockdom
  have hmainstruct : ∀ k' : ℕ,
      (fillMain mainW alpha rs 5 (seedLocked lockedMain ([], mainDomain)).1
        (seedLocked lockedMain ([], mainDomain)).2 k').1.length = 5 ∧
      (fillMain mainW alpha rs 5 (seedLocked lockedMain ([], mainDomain)).1
        (seedLocked lockedMain ([], mainDomain)).2 k').1.Nodup ∧
      (∀ x ∈ (fillMain mainW alpha rs 5 (seedLocked lockedMain ([], mainDomain)).1
        (seedLocked lockedMain ([], mainDomain)).2 k').1, x ∈ mainDomain) ∧
      (∀ x ∈ (seedLocked lockedMain ([], mainDomain)).1,
        x ∈ (fillMain mainW alpha rs 5 (seedLocked lockedMain ([], mainDomain)).1
          (seedLocked lockedMain ([], mainDomain)).2 k').1) := by
    intro k'
    refine fillMain_spec mainW alpha rs 5 k' sinv ?_ ?_ ?_
    · simp at slen; omega
    · rw [mainDomain_length] at ssum; simp at ssum; omega
    · omega
  have hmainProps : ∀ (filled : List ℤ), filled.length = 5 → filled.Nodup →
      (∀ x ∈ filled, x ∈ mainDomain) →
      (sortAsc filled).length = 5 ∧ (sortAsc filled).Sorted (· < ·) ∧
      (∀ x ∈ sortAsc filled, 1 ≤ x ∧ x ≤ 69) ∧
      (∀ x ∈ filled, x ∈ sortAsc filled) := by
    intro filled hlen hnd hdom
    refine ⟨(sortAsc_perm filled).length_eq.trans hlen, sortAsc_sorted_lt hnd,
      ?_, ?_⟩
    · intro x hx
      exact mem_mainDomain.mp (hdom x ((sortAsc_perm filled).mem_iff.mp hx))
    · intro x hx
      exact (sortAsc_perm filled).mem_iff.mpr hx
  by_cases hpb : 0 < pbCands.length
  · have hne : pbCands ≠ [] := by
      intro h; rw [h] at hpb; simp at hpb
    have heq : onePick mainW pbW alpha lockedMain pbCands rs k =
        (⟨sortAsc (fillMain mainW alpha rs 5
            (seedLocked lockedMain ([], mainDomain)).1
            (seedLocked lockedMain ([], mainDomain)).2 (k + 1)).1,
          pickOneBlended pbCands pbW alpha (rs k)⟩,
          (fillMain mainW alpha rs 5 (seedLocked lockedMain ([], mainDomain)).1
            (seedLocked lockedMain ([], mainDomain)).2 (k + 1)).2) := by
      simp [onePick, hpb]
    rw [heq]
    obtain ⟨f1, f2, f3, f4⟩ := hmainstruct (k + 1)
    obtain ⟨m1, m2, m3, m4⟩ := hmainProps _ f1 f2 f3
    exact ⟨m1, m2, m3, fun x hx => m4 x (f4 x (slock x hx)),
      fun _ => pickOneBlended_mem hne pbW alpha (rs k),
      fun h => absurd h hne⟩
  · have hnil : pbCands = [] := by
      cases pbCands with
      | nil => rfl
      | cons a l => simp at hpb
    have heq : onePick mainW pbW alpha lockedMain pbCands rs k =
        (⟨sortAsc (fillMain mainW alpha rs 5
            (seedLocked lockedMain ([], mainDomain)).1
            (seedLocked lockedMain ([], mainDomain)).2 k).1,
          pickOneBlended pbDomain pbW alpha
            (rs (fillMain mainW alpha rs 5
              (seedLocked lockedMain ([], mainDomain)).1
              (seedLocked lockedMain ([], mainDomain)).2 k).2)⟩,
          (fillMain mainW alpha rs 5 (seedLocked lockedMain ([], mainDomain)).1
            (seedLocked lockedMain ([], mainDomain)).2 k).2 + 1) := by
      simp [onePick, hpb]
    rw [heq]
    obtain ⟨f1, f2, f3, f4⟩ := hmainstruct k
    obtain ⟨m1, m2, m3, m4⟩ := hmainProps _ f1 f2 f3
    refine ⟨m1, m2, m3, fun x hx => m4 x (f4 x (slock x hx)),
      fun h => absurd hnil h, fun _ => ?_⟩
    exact mem_pbDomain.mp (pickOneBlended_mem pbDomain_ne_nil pbW alpha _)

theorem picksLoop_length (mainW pbW : ℤ → Option ℚ) (alpha : ℚ)
    (lockedMain pbCands : List ℤ) (rs : ℕ → ℚ) :
    ∀ (i k : ℕ),
      (picksLoop mainW pbW alpha lockedMain pbCands rs i k).length = i := by
  intro i
  induction i with
  | zero => intro k; rfl
  | succ n ih =>
    intro k
    simp only [picksLoop, List.length_cons, ih]

theorem picksLoop_mem (mainW pbW : ℤ → Option ℚ) (alpha : ℚ)
    (lockedMain pbCands : List ℤ) (rs : ℕ → ℚ) :
    ∀ {i k : ℕ} {pick : Pick},
      pick ∈ picksLoop mainW pbW alpha lockedMain pbCands rs i k →
      ∃ k0, pick = (onePick mainW pbW alpha lockedMain pbCands rs k0).1 := by
  intro i
  induction i with
  | zero => intro k pick h; simp [picksLoop] at h
  | succ n ih =>
    intro k pick h
    simp only [picksLoop, List.mem_cons] at h
    rcases h with h | h
    · exact ⟨k, h⟩
    · exact ih h

theorem onePick_powerball_mem (mainW pbW : ℤ → Option ℚ) (alpha : ℚ)
    (lockedMain pbCands : List ℤ) (rs : ℕ → ℚ) (k : ℕ)
    (hne : pbCands ≠ []) :
    (onePick mainW pbW alpha lockedMain pbCands rs k).1.powerball ∈ pbCands := by
  have hpb : 0 < pbCands.length := List.length_pos.mpr hne
  have heq :
      (onePick mainW pbW alpha lockedMain pbCands rs k).1.powerball =
        pickOneBlended pbCands pbW alpha (rs k) := by
    simp [onePick, hpb]
  rw [heq]
  exact pickOneBlended_mem hne pbW alpha (rs k)

/-! ### Claim theorems -/

/-- C1: for every call `generatePicks(count, randomnessPercent, mainLocked,
powerballLocked)` in which `mainLocked` is a list of at most 5 distinct
integers in `[1,69]` and `powerballLocked` is a set of integers in
`[1,26]`, the result is a list of exactly `clamp(count, 1, 50)` picks, and
every pick has exactly 5 distinct main numbers, each in `[1,69]`, sorted
ascending (strict ascent captures both distinctness and sorting), plus one
powerball in `[1,26]`. -/
theorem generatePicks_structure (mainW pbW : ℤ → Option ℚ) (count : ℤ)
    (pct : ℚ) (ml pbl : List ℤ) (rs : ℕ → ℚ)
    (hml_nd : ml.Nodup) (hml_len : ml.length ≤ 5)
    (hml_dom : ∀ x ∈ ml, 1 ≤ x ∧ x ≤ 69)
    (hpbl_nd : pbl.Nodup) (hpbl_dom : ∀ x ∈ pbl, 1 ≤ x ∧ x ≤ 26) :
    (generatePicks mainW pbW count pct ml pbl rs).length =
      (clampInt count 1 50).toNat ∧
    ∀ pick ∈ generatePicks mainW pbW count pct ml pbl rs,
      pick.main.length = 5 ∧ pick.main.Sorted (· < ·) ∧
      (∀ x ∈ pick.main, 1 ≤ x ∧ x ≤ 69) ∧
      1 ≤ pick.powerball ∧ pick.powerball ≤ 26 := by
  constructor
  · exact picksLoop_length mainW pbW _ _ _ rs _ 0
  · intro pick hmem
    obtain ⟨k0, hk0⟩ := picksLoop_mem mainW pbW _ _ _ rs hmem
    have hlockdom : ∀ x ∈ ml.take 5, x ∈ mainDomain := fun x hx =>
      mem_mainDomain.mpr (hml_dom x (List.mem_of_mem_take hx))
    have hlocklen : (ml.take 5).length ≤ 5 := by
      rw [List.length_take]; omega
    obtain ⟨p1, p2, p3, _, p5, p6⟩ := onePick_spec mainW pbW
      (clampQ pct 0 100 / 100) (ml.take 5) pbl rs k0 hlockdom hlocklen
    subst hk0
    refine ⟨p1, p2, p3, ?_⟩
    by_cases hc : pbl = []
    · exact p6 hc
    · exact hpbl_dom _ (p5 hc)

/-- Witness for C1 at a concrete input: 3 picks requested, two locked main
numbers, one locked powerball, a fixed entropy stream. -/
theorem generatePicks_structure_witness :
    (generatePicks (fun _ => some 1) (fun _ => some 1) 3 70 [7, 33] [21]
        (fun k => 1 / (k + 2 : ℚ))).length = (clampInt 3 1 50).toNat ∧
    ∀ pick ∈ generatePicks (fun _ => some 1) (fun _ => some 1) 3 70 [7, 33]
        [21] (fun k => 1 / (k + 2 : ℚ)),
      pick.main.length = 5 ∧ pick.main.Sorted (· < ·) ∧
      (∀ x ∈ pick.main, 1 ≤ x ∧ x ≤ 69) ∧
      1 ≤ pick.powerball ∧ pick.powerball ≤ 26 :=
  generatePicks_structure (fun _ => some 1) (fun _ => some 1) 3 70 [7, 33]
    [21] (fun k => 1 / (k + 2 : ℚ)) (by decide) (by decide)
    (by decide) (by decide) (by decide)

/-- C3: for every call to `generatePicks` with `mainLocked` a list of
distinct integers in `[1,69]`, every value among the first 5 entries of
`mainLocked` appears in the main numbers of every returned pick. -/
theorem generatePicks_locked_main (mainW pbW : ℤ → Option ℚ) (count : ℤ)
    (pct : ℚ) (ml pbl : List ℤ) (rs : ℕ → ℚ)
    (hml_nd : ml.Nodup) (hml_dom : ∀ x ∈ ml, 1 ≤ x ∧ x ≤ 69) :
    ∀ pick ∈ generatePicks mainW pbW count pct ml pbl rs,
      ∀ v ∈ ml.take 5, v ∈ pick.main := by
  intro pick hmem v hv
  obtain ⟨k0, hk0⟩ := picksLoop_mem mainW pbW _ _ _ rs hmem
  have hlockdom : ∀ x ∈ ml.take 5, x ∈ mainDomain := fun x hx =>
    mem_mainDomain.mpr (hml_dom x (List.mem_of_mem_take hx))
  have hlocklen : (ml.take 5).length ≤ 5 := by
    rw [List.length_take]; omega
  obtain ⟨_, _, _, p4, _, _⟩ := onePick_spec mainW pbW
    (clampQ pct 0 100 / 100) (ml.take 5) pbl rs k0 hlockdom hlocklen
  subst hk0
  exact p4 v hv

set_option maxRecDepth 100000 in
/-- Witness for C3: the locked value `7` is a member of the first
generated pick's main numbers at a concrete call. -/
theorem generatePicks_locked_main_witness :
    (7 : ℤ) ∈ (⟨[7, 14, 18, 24, 33], 5⟩ : Pick).main :=
  generatePicks_locked_main (fun _ => some 1) (fun _ => some 1) 2 0 [7, 33]
    [] (fun k => 1 / (k + 3 : ℚ)) (by decide) (by decide)
    ⟨[7, 14, 18, 24, 33], 5⟩ (by with_unfolding_all decide) 7
    (by with_unfolding_all decide)

/-- C4: for every call to `generatePicks` in which `powerballLocked` is
non-empty, the powerball of every returned pick is a member of
`powerballLocked`. -/
theorem generatePicks_locked_pb (mainW pbW : ℤ → Option ℚ) (count : ℤ)
    (pct : ℚ) (ml pbl : List ℤ) (rs : ℕ → ℚ) (hne : pbl ≠ []) :
    ∀ pick ∈ generatePicks mainW pbW count pct ml pbl rs,
      pick.powerball ∈ pbl := by
  intro pick hmem
  obtain ⟨k0, hk0⟩ := picksLoop_mem mainW pbW _ _ _ rs hmem
  subst hk0
  exact onePick_powerball_mem mainW pbW _ _ _ rs k0 hne

set_option maxRecDepth 100000 in
/-- Witness for C4: the first pick of a concrete call whose locked
powerball set is `[4, 9]` has its powerball in that set. -/
theorem generatePicks_locked_pb_witness :
    (⟨[10, 11, 14, 17, 23], 4⟩ : Pick).powerball ∈ ([4, 9] : List ℤ) :=
  generatePicks_locked_pb (fun _ => some 1) (fun _ => some 1) 2 100 [] [4, 9]
    (fun k => 1 / (k + 2 : ℚ)) (by decide) ⟨[10, 11, 14, 17, 23], 4⟩
    (by with_unfolding_all decide)

/-- Remove later duplicates from a list, keeping the first occurrence of
each value that is not already in `seen` (the order the seeding loop of
`generatePicks` honors locked values in). -/
def dedupAgainst (seen : List ℤ) : List ℤ → List ℤ
  | [] => []
  | x :: xs =>
    if x ∈ seen then dedupAgainst seen xs
    else x :: dedupAgainst (seen ++ [x]) xs

/-- First-occurrence deduplication. -/
def dedupFirst (l : List ℤ) : List ℤ :=
  dedupAgainst [] l

theorem dedupAgainst_length_le (seen l : List ℤ) :
    (dedupAgainst seen l).length ≤ l.length := by
  induction l generalizing seen with
  | nil => simp [dedupAgainst]
  | cons x xs ih =>
    simp only [dedupAgainst]
    split
    · exact (ih seen).trans (by simp)
    · simpa using ih (seen ++ [x])

theorem seedLocked_dedupAgainst :
    ∀ (l main avail : List ℤ),
      seedLocked l (main, avail) =
        seedLocked (dedupAgainst main l) (main, avail) := by
  intro l
  induction l with
  | nil => intro main avail; rfl
  | cons x xs ih =>
    intro main avail
    by_cases hmem : x ∈ main
    · simp only [seedLocked, dedupAgainst, hmem, if_true]
      exact ih main avail
    · simp only [seedLocked, dedupAgainst, hmem, if_false]
      exact ih (main ++ [x]) _

theorem onePick_dedup (mainW pbW : ℤ → Option ℚ) (alpha : ℚ)
    (lm pc : List ℤ) (rs : ℕ → ℚ) (k : ℕ) :
    onePick mainW pbW alpha lm pc rs k =
      onePick mainW pbW alpha (dedupFirst lm) pc rs k := by
  unfold onePick
  rw [seedLocked_dedupAgainst lm [] mainDomain]
  rfl

theorem picksLoop_dedup (mainW pbW : ℤ → Option ℚ) (alpha : ℚ)
    (lm pc : List ℤ) (rs : ℕ → ℚ) :
    ∀ i k, picksLoop mainW pbW alpha lm pc rs i k =
      picksLoop mainW pbW alpha (dedupFirst lm) pc rs i k := by
  intro i
  induction i with
  | zero => intro k; rfl
  | succ n ih =>
    intro k
    simp only [picksLoop, onePick_dedup mainW pbW alpha lm pc rs k, ih]

/-- C10: when `mainLocked` contains duplicates or more than 5 entries, the
picks still have exactly 5 distinct main numbers; `mainLocked` is
truncated to its first 5 entries (entries past position five change
nothing), and a value repeated among the first five is honored only once
(seeding with the first-occurrence deduplication of the first five entries
yields the identical result, freed slots being filled by the sampling
loop). -/
theorem generatePicks_dup_truncation (mainW pbW : ℤ → Option ℚ)
    (count : ℤ) (pct : ℚ) (l pbl : List ℤ) (rs : ℕ → ℚ)
    (hdom : ∀ x ∈ l, 1 ≤ x ∧ x ≤ 69) :
    (∀ pick ∈ generatePicks mainW pbW count pct l pbl rs,
      pick.main.length = 5 ∧ pick.main.Nodup) ∧
    generatePicks mainW pbW count pct l pbl rs =
      generatePicks mainW pbW count pct (l.take 5) pbl rs ∧
    generatePicks mainW pbW count pct l pbl rs =
      generatePicks mainW pbW count pct (dedupFirst (l.take 5)) pbl rs := by
  refine ⟨?_, ?_, ?_⟩
  · intro pick hmem
    obtain ⟨k0, hk0⟩ := picksLoop_mem mainW pbW _ _ _ rs hmem
    have hlockdom : ∀ x ∈ l.take 5, x ∈ mainDomain := fun x hx =>
      mem_mainDomain.mpr (hdom x (List.mem_of_mem_take hx))
    have hlocklen : (l.take 5).length ≤ 5 := by
      rw [List.length_take]; omega
    obtain ⟨p1, p2, _, _, _, _⟩ := onePick_spec mainW pbW
      (clampQ pct 0 100 / 100) (l.take 5) pbl rs k0 hlockdom hlocklen
    subst hk0
    exact ⟨p1, p2.imp fun hab => ne_of_lt hab⟩
  · simp only [generatePicks, List.take_take]
    norm_num
  · have hlen : (dedupFirst (l.take 5)).length ≤ 5 := by
      have h1 := dedupAgainst_length_le [] (l.take 5)
      have h2 : (l.take 5).length ≤ 5 := by rw [List.length_take]; omega
      exact le_trans h1 h2
    simp only [generatePicks, List.take_of_length_le hlen]
    exact picksLoop_dedup mainW pbW _ (l.take 5) pbl rs _ 0

/-- Witness for C10 at a locked list with a duplicated value and more than
5 entries. -/
theorem generatePicks_dup_truncation_witness :
    (∀ pick ∈ generatePicks (fun _ => some 1) (fun _ => some 1) 2 50
        [3, 3, 7, 9, 11, 13] [] (fun k => 1 / (k + 2 : ℚ)),
      pick.main.length = 5 ∧ pick.main.Nodup) ∧
    generatePicks (fun _ => some 1) (fun _ => some 1) 2 50
        [3, 3, 7, 9, 11, 13] [] (fun k => 1 / (k + 2 : ℚ)) =
      generatePicks (fun _ => some 1) (fun _ => some 1) 2 50
        (([3, 3, 7, 9, 11, 13] : List ℤ).take 5) [] (fun k => 1 / (k + 2 : ℚ)) ∧
    generatePicks (fun _ => some 1) (fun _ => some 1) 2 50
        [3, 3, 7, 9, 11, 13] [] (fun k => 1 / (k + 2 : ℚ)) =
      generatePicks (fun _ => some 1) (fun _ => some 1) 2 50
        (dedupFirst (([3, 3, 7, 9, 11, 13] : List ℤ).take 5)) []
        (fun k => 1 / (k + 2 : ℚ)) :=
  generatePicks_dup_truncation (fun _ => some 1) (fun _ => some 1) 2 50
    [3, 3, 7, 9, 11, 13] [] (fun k => 1 / (k + 2 : ℚ)) (by decide)

/-- Spec-side walk (from the spec's words): accumulate `p(c)` over the
candidates in order and return the first candidate where the running
cumulative sum reaches `r`. -/
def specWalk (p : ℤ → ℚ) (r : ℚ) : ℚ → List ℤ → Option ℤ
  | _, [] => none
  | cum, c :: rest =>
    if r ≤ cum + p c then some c else specWalk p r (cum + p c) rest

/-- Spec-side `pickOneWeighted` (from the spec's words): blended
probability `p(c) = (1-alpha)*weight(c)/sum + alpha/|candidates|`, first
candidate whose cumulative sum reaches `r`, last candidate as fallback. -/
def specPickOneWeighted (cands : List ℤ) (weight : ℤ → ℚ) (alpha r : ℚ) : ℤ :=
  let S := (cands.map weight).sum
  let p : ℤ → ℚ := fun c =>
    (1 - alpha) * (weight c / S) + alpha * (1 / (cands.length : ℚ))
  match specWalk p r 0 cands with
  | some c => c
  | none => (cands.getLast?).getD 0

theorem pickLoop_congr {w : ℤ → Option ℚ} {a sumW uniformP r : ℚ}
    {p : ℤ → ℚ} :
    ∀ {l : List ℤ} {cum : ℚ},
      (∀ c ∈ l, blendP w a sumW uniformP c = p c) →
      pickLoop w a sumW uniformP r cum l = specWalk p r cum l := by
  intro l
  induction l with
  | nil => intro cum _; rfl
  | cons x xs ih =>
    intro cum hb
    have hx : blendP w a sumW uniformP x = p x :=
      hb x (List.mem_cons_self x xs)
    simp only [pickLoop, specWalk, hx]
    split
    · rfl
    · exact ih fun c hc => hb c (List.mem_cons_of_mem x hc)

/-- C5: for every non-empty ordered list of distinct candidates, every
weights mapping covering the candidates with positive weights, every
`alpha` in `[0,1]` and every draw `r` in `[0,1)`, `pickOneBlended`
computes exactly the spec's walk: the first candidate (in order) at which
the running cumulative sum of `p(c) = (1-alpha)*weight(c)/sum +
alpha/|candidates|` reaches `r`, the last candidate as fallback, and the
result is always an element of the candidate list. -/
theorem pickOneBlended_refines_spec (cands : List ℤ) (w : ℤ → Option ℚ)
    (wf : ℤ → ℚ) (alpha r : ℚ)
    (hcov : ∀ c ∈ cands, w c = some (wf c))
    (hpos : ∀ c ∈ cands, 0 < wf c)
    (hne : cands ≠ []) (hnd : cands.Nodup)
    (ha0 : 0 ≤ alpha) (ha1 : alpha ≤ 1) (hr0 : 0 ≤ r) (hr1 : r < 1) :
    pickOneBlended cands w alpha r = specPickOneWeighted cands wf alpha r ∧
    pickOneBlended cands w alpha r ∈ cands := by
  refine ⟨?_, pickOneBlended_mem hne w alpha r⟩
  have hclamp : clampQ alpha 0 1 = alpha := by
    rw [clampQ, min_eq_right ha1, max_eq_right ha0]
  have hmap : cands.map (getOr0 w) = cands.map wf :=
    List.map_congr_left fun c hc => by rw [getOr0, hcov c hc]
  have hSpos : 0 < (cands.map wf).sum := by
    refine List.sum_pos _ ?_ ?_
    · intro x hx
      obtain ⟨c, hc, rfl⟩ := List.mem_map.mp hx
      exact hpos c hc
    · simpa using hne
  have hblend : ∀ c ∈ cands,
      blendP w alpha ((cands.map wf).sum) (1 / (cands.length : ℚ)) c =
        (1 - alpha) * (wf c / (cands.map wf).sum) +
          alpha * (1 / (cands.length : ℚ)) := by
    intro c hc
    simp only [blendP, getOr1, hcov c hc]
    rw [if_neg (ne_of_gt (hpos c hc))]
  unfold pickOneBlended specPickOneWeighted
  dsimp only
  rw [hclamp, hmap, if_neg (not_le.mpr hSpos)]
  rw [pickLoop_congr hblend]

/-- Witness for C5: two candidates with weights 3 and 2, `alpha = 1/2`,
`r = 7/10`. -/
theorem pickOneBlended_refines_spec_witness :
    pickOneBlended [4, 9] (fun c => if c = 4 then some 3 else some 2)
        (1 / 2) (7 / 10) =
      specPickOneWeighted [4, 9] (fun c => if c = 4 then (3 : ℚ) else 2)
        (1 / 2) (7 / 10) ∧
    pickOneBlended [4, 9] (fun c => if c = 4 then some 3 else some 2)
        (1 / 2) (7 / 10) ∈ ([4, 9] : List ℤ) :=
  pickOneBlended_refines_spec [4, 9]
    (fun c => if c = 4 then some 3 else some 2)
    (fun c => if c = 4 then (3 : ℚ) else 2) (1 / 2) (7 / 10)
    (by decide) (by decide) (by decide) (by decide)
    (by norm_num) (by norm_num) (by norm_num) (by norm_num)

theorem blendP_one (w : ℤ → Option ℚ) (s u : ℚ) (n : ℤ) :
    blendP w 1 s u n = u := by
  rw [blendP]
  ring

theorem pickLoop_one (w1 w2 : ℤ → Option ℚ) (s1 s2 u r : ℚ) :
    ∀ (l : List ℤ) (cum : ℚ),
      pickLoop w1 1 s1 u r cum l = pickLoop w2 1 s2 u r cum l := by
  intro l
  induction l with
  | nil => intro cum; rfl
  | cons x xs ih =>
    intro cum
    simp only [pickLoop, blendP_one]
    split
    · rfl
    · exact ih _

/-- C9: when `alpha = 1` (`randomnessPercent = 100`), the blended
probability computed for every candidate equals exactly
`1/|candidates|`, and for any fixed draw `r` the selected value is
identical under any two weights mappings: selection is independent of the
historical weighting. -/
theorem pickOneBlended_alpha_one (cands : List ℤ)
    (w1 w2 : ℤ → Option ℚ) (r s : ℚ) (n : ℤ) :
    blendP w1 1 s (1 / (cands.length : ℚ)) n = 1 / (cands.length : ℚ) ∧
    pickOneBlended cands w1 1 r = pickOneBlended cands w2 1 r := by
  refine ⟨blendP_one w1 s _ n, ?_⟩
  unfold pickOneBlended
  dsimp only
  have hclamp : clampQ 1 0 1 = 1 := by norm_num [clampQ]
  rw [hclamp]
  rw [pickLoop_one w1 w2 _ _ _ r cands 0]

/-- Extension of a weights mapping giving weight `1` to every key absent
from it (the mapping C6 compares against). -/
def extendW (w : ℤ → Option ℚ) : ℤ → Option ℚ := fun n =>
  match w n with
  | some q => some q
  | none => some 1

/-- C6 as stated is false: with candidates `[1, 2]`, a mapping holding
only `1 ↦ 3`, `alpha = 0` and `r = 9/10`, `pickOneBlended` returns `1`
(the absent candidate contributes `0`, not `1`, to the normalizing sum,
so candidate `1` absorbs the whole mass), while the weight-1-extended
mapping returns `2`. -/
theorem pickOneBlended_default_counterexample :
    pickOneBlended [1, 2] (fun n => if n = 1 then some 3 else none) 0
        (9 / 10) = 1 ∧
    pickOneBlended [1, 2]
        (extendW (fun n => if n = 1 then some 3 else none)) 0 (9 / 10) = 2 := by
  constructor <;> with_unfolding_all decide

theorem getOr1_extendW (w : ℤ → Option ℚ) (n : ℤ) :
    getOr1 (extendW w) n = getOr1 w n := by
  rw [getOr1, getOr1, extendW]
  cases w n with
  | none => norm_num
  | some q => rfl

theorem sum_map_one (l : List ℤ) :
    (l.map fun _ => (1 : ℚ)).sum = (l.length : ℚ) := by
  induction l with
  | nil => rfl
  | cons x xs ih => simp [ih]; ring

/-- C6 amended: a candidate missing from the weights mapping is treated as
weight 1 in the per-candidate probability, but contributes 0 to the
normalizing sum; the claimed equivalence with the weight-1-extended
mapping therefore holds when every candidate is absent from the mapping
(the zero-sum fallback then makes the normalizing sum `|candidates|`,
exactly what the extended mapping yields), and fails in general when only
some candidates are absent. -/
theorem pickOneBlended_default_all_absent (cands : List ℤ)
    (w : ℤ → Option ℚ) (alpha r : ℚ) (habs : ∀ c ∈ cands, w c = none) :
    pickOneBlended cands w alpha r =
      pickOneBlended cands (extendW w) alpha r := by
  unfold pickOneBlended
  dsimp only
  have hsum1 : (cands.map (getOr0 w)).sum = 0 := by
    refine List.sum_eq_zero ?_
    intro x hx
    obtain ⟨c, hc, rfl⟩ := List.mem_map.mp hx
    rw [getOr0, habs c hc]
  have hsum2 : (cands.map (getOr0 (extendW w))).sum = (cands.length : ℚ) := by
    have hmap : cands.map (getOr0 (extendW w)) = cands.map fun _ => (1 : ℚ) :=
      List.map_congr_left fun c hc => by
        rw [getOr0, extendW, habs c hc]
    rw [hmap, sum_map_one]
  rw [hsum1, hsum2, if_pos le_rfl, ite_self]
  have hblend : ∀ c ∈ cands,
      blendP (extendW w) (clampQ alpha 0 1) (cands.length : ℚ)
          (1 / (cands.length : ℚ)) c =
        blendP w (clampQ alpha 0 1) (cands.length : ℚ)
          (1 / (cands.length : ℚ)) c := by
    intro c _
    rw [blendP, blendP, getOr1_extendW]
  rw [@pickLoop_congr w (clampQ alpha 0 1) (cands.length : ℚ)
      (1 / (cands.length : ℚ)) r
      (fun c => blendP w (clampQ alpha 0 1) (cands.length : ℚ)
        (1 / (cands.length : ℚ)) c) cands 0 (fun c _ => rfl)]
  rw [@pickLoop_congr (extendW w) (clampQ alpha 0 1) (cands.length : ℚ)
      (1 / (cands.length : ℚ)) r
      (fun c => blendP w (clampQ alpha 0 1) (cands.length : ℚ)
        (1 / (cands.length : ℚ)) c) cands 0 hblend]

/-- Witness for the amended C6 at a mapping from which both candidates are
absent. -/
theorem pickOneBlended_default_all_absent_witness :
    pickOneBlended [1, 2] (fun _ => none) 0 (1 / 2) =
      pickOneBlended [1, 2] (extendW fun _ => none) 0 (1 / 2) :=
  pickOneBlended_default_all_absent [1, 2] (fun _ => none) 0 (1 / 2)
    (by decide)

/-- C7: for every list of historical draws (including the empty list) the
frequency tables contain every integer of their domain as a key, with
value the observed occurrence count plus 1; every present weight is
strictly positive, and over an empty history every domain value has
weight exactly 1. -/
theorem baseWeights_cover (draws : List Draw) (n : ℤ) :
    (1 ≤ n ∧ n ≤ 69 →
      mainBaseWeights draws n = some ((mainFreq draws n : ℚ) + 1)) ∧
    (1 ≤ n ∧ n ≤ 26 →
      pbBaseWeights draws n = some ((pbFreq draws n : ℚ) + 1)) ∧
    (∀ q, mainBaseWeights draws n = some q → 0 < q) ∧
    (∀ q, pbBaseWeights draws n = some q → 0 < q) ∧
    (1 ≤ n ∧ n ≤ 69 → mainBaseWeights [] n = some 1) ∧
    (1 ≤ n ∧ n ≤ 26 → pbBaseWeights [] n = some 1) := by
  have hmain : ∀ q, mainBaseWeights draws n = some q → 0 < q := by
    intro q hq
    rw [mainBaseWeights] at hq
    split at hq
    · have : ((mainFreq draws n : ℚ) + 1) = q := by
        injection hq
      rw [← this]
      positivity
    · exact absurd hq (by simp)
  have hpb : ∀ q, pbBaseWeights draws n = some q → 0 < q := by
    intro q hq
    rw [pbBaseWeights] at hq
    split at hq
    · have : ((pbFreq draws n : ℚ) + 1) = q := by
        injection hq
      rw [← this]
      positivity
    · exact absurd hq (by simp)
  refine ⟨?_, ?_, hmain, hpb, ?_, ?_⟩
  · intro hr
    rw [mainBaseWeights, if_pos (mem_mainDomain.mpr hr)]
  · intro hr
    rw [pbBaseWeights, if_pos (mem_pbDomain.mpr hr)]
  · intro hr
    rw [mainBaseWeights, if_pos (mem_mainDomain.mpr hr)]
    simp [mainFreq]
  · intro hr
    rw [pbBaseWeights, if_pos (mem_pbDomain.mpr hr)]
    simp [pbFreq]

/-- Witness for C7 at a single concrete draw containing the main number
`7` once: its weight is its count plus one, and over the empty history
the weight of `7` is exactly `1`. -/
theorem baseWeights_cover_witness :
    mainBaseWeights [⟨[1, 7, 20, 30, 40], 7⟩] 7 =
      some ((mainFreq [⟨[1, 7, 20, 30, 40], 7⟩] 7 : ℚ) + 1) ∧
    pbBaseWeights [⟨[1, 7, 20, 30, 40], 7⟩] 7 =
      some ((pbFreq [⟨[1, 7, 20, 30, 40], 7⟩] 7 : ℚ) + 1) ∧
    mainBaseWeights [] 7 = some 1 ∧ pbBaseWeights [] 7 = some 1 :=
  ⟨(baseWeights_cover [⟨[1, 7, 20, 30, 40], 7⟩] 7).1 (by decide),
   (baseWeights_cover [⟨[1, 7, 20, 30, 40], 7⟩] 7).2.1 (by decide),
   (baseWeights_cover [] 7).2.2.2.2.1 (by decide),
   (baseWeights_cover [] 7).2.2.2.2.2 (by decide)⟩

/-- The claim's prize tier table, written from the spec's words as a
case split on `(whiteMatches, powerballMatch)` with default `0`. -/
def claimBase (w : ℤ) (pb : Bool) : Prize :=
  if w = 5 ∧ pb = true then Prize.jackpot
  else if w = 5 ∧ pb = false then Prize.cash 1000000
  else if w = 4 ∧ pb = true then Prize.cash 50000
  else if w = 4 ∧ pb = false then Prize.cash 100
  else if w = 3 ∧ pb = true then Prize.cash 100
  else if w = 3 ∧ pb = false then Prize.cash 7
  else if w = 2 ∧ pb = true then Prize.cash 7
  else if w = 1 ∧ pb = true then Prize.cash 4
  else if w = 0 ∧ pb = true then Prize.cash 4
  else Prize.cash 0

theorem lookup_baseTable_eq_claimBase (w : ℤ) (pb : Bool) :
    (baseTable.lookup (w, pb)).getD (Prize.cash 0) = claimBase w pb := by
  by_cases h5 : w = 5 <;> by_cases h4 : w = 4 <;> by_cases h3 : w = 3 <;>
    by_cases h2 : w = 2 <;> by_cases h1 : w = 1 <;> by_cases h0 : w = 0 <;>
    cases pb <;> simp_all [claimBase] <;>
    first
      | decide
      | (simp only [baseTable, List.lookup]
         repeat' split <;> simp_all [Prod.ext_iff])

/-- C8: `computePrize` is total; the base prize is exactly the claim's
fixed tier table (with default `0` outside the table), and whenever the
multiplier is absent or not a finite number `≥ 2` the multiplied prize is
absent. -/
theorem computePrize_total (w : ℤ) (pb : Bool) (mult : Option JSNum) :
    (computePrize w pb mult).1 = claimBase w pb ∧
    (computePrize w pb none).2 = none ∧
    (∀ m, isValidMult m = false → (computePrize w pb (some m)).2 = none) := by
  have hbase := lookup_baseTable_eq_claimBase w pb
  have hvnone : ∀ m, isValidMult m = false → validM m = none := by
    intro m hm
    cases m with
    | fin q =>
      rw [isValidMult, decide_eq_false_iff_not] at hm
      rw [validM, if_neg hm]
    | nan => rfl
    | posInf => rfl
    | negInf => rfl
  refine ⟨?_, rfl, ?_⟩
  · cases mult with
    | none => simpa [computePrize] using hbase
    | some m =>
      rw [computePrize]
      cases hv : validM m with
      | none => simpa using hbase
      | some q =>
        split_ifs with hj h0 h50
        · simpa using hbase
        · rw [← hbase]
          exact h0.symm
        · exact hbase
        · exact hbase
  · intro m hm
    rw [computePrize]
    rw [hvnone m hm]

/-- Witness for C8 at `whiteMatches = 2`, no powerball match, `NaN`
multiplier: the base prize falls outside the table (so is `0`) and the
multiplied prize is absent. -/
theorem computePrize_total_witness :
    (computePrize 2 false (some JSNum.nan)).1 = claimBase 2 false ∧
    (computePrize 2 false none).2 = none ∧
    (computePrize 2 false (some JSNum.nan)).2 = none :=
  ⟨(computePrize_total 2 false (some JSNum.nan)).1,
   (computePrize_total 2 false (some JSNum.nan)).2.1,
   (computePrize_total 2 false (some JSNum.nan)).2.2 JSNum.nan rfl⟩

/-- C2: for a valid multiplier (a finite number `≥ 2`), the jackpot tier
is never multiplied, the zero tier stays zero, the 5-white-no-powerball
tier is fixed at exactly `2000000` regardless of the multiplier's value,
and every other non-zero tier is multiplied as `base * multiplier`. -/
theorem computePrize_multiplier_rules (w : ℤ) (pb : Bool) (q : ℚ)
    (hw0 : 0 ≤ w) (hw5 : w ≤ 5) (hq : 2 ≤ q) :
    (claimBase w pb = Prize.jackpot →
      computePrize w pb (some (JSNum.fin q)) =
        (Prize.jackpot, some Prize.jackpot)) ∧
    (claimBase w pb = Prize.cash 0 →
      computePrize w pb (some (JSNum.fin q)) =
        (Prize.cash 0, some (Prize.cash 0))) ∧
    (w = 5 → pb = false →
      computePrize w pb (some (JSNum.fin q)) =
        (Prize.cash 1000000, some (Prize.cash 2000000))) ∧
    (∀ b : ℚ, claimBase w pb = Prize.cash b → b ≠ 0 →
      ¬(w = 5 ∧ pb = false) →
      computePrize w pb (some (JSNum.fin q)) =
        (Prize.cash b, some (Prize.cash (b * q)))) := by
  have hv : validM (JSNum.fin q) = some q := by
    rw [validM, if_pos hq]
  have hbase := lookup_baseTable_eq_claimBase w pb
  refine ⟨?_, ?_, ?_, ?_⟩
  · intro hj
    rw [computePrize]
    rw [hv]
    rw [hbase, hj]
    simp
  · intro h0
    rw [computePrize]
    rw [hv, hbase, h0]
    simp
  · intro h5 hpb
    subst h5
    subst hpb
    have hb5 : claimBase 5 false = Prize.cash 1000000 := by decide
    rw [computePrize]
    rw [hv, hbase, hb5]
    dsimp only
    rw [if_neg (by decide), if_neg (by decide), if_pos ⟨rfl, rfl⟩]
  · intro b hb hbne hnot
    rw [computePrize]
    rw [hv, hbase, hb]
    dsimp only
    rw [if_neg (by simp), if_neg (by simpa using hbne), if_neg hnot]
    rfl

/-- Witness for C2 at `whiteMatches = 3`, no powerball match, multiplier
`2`: the prize is multiplied to `7 * 2 = 14`; and at `(5, false)` the
multiplied prize is the fixed `2000000`. -/
theorem computePrize_multiplier_rules_witness :
    computePrize 3 false (some (JSNum.fin 2)) =
      (Prize.cash 7, some (Prize.cash (7 * 2))) ∧
    computePrize 5 false (some (JSNum.fin 2)) =
      (Prize.cash 1000000, some (Prize.cash 2000000)) :=
  ⟨(computePrize_multiplier_rules 3 false 2 (by norm_num) (by norm_num)
      (by norm_num)).2.2.2 7 (by decide) (by norm_num) (by simp),
   (computePrize_multiplier_rules 5 false 2 (by norm_num) (by norm_num)
      (by norm_num)).2.2.1 rfl rfl⟩
